import Mathlib

/-!
# Verification of the finality-benchmark statistics and serialization core

Shallow embedding of the repository's statistics engine (`src/utils/stats.ts`,
mirrored by the CommonJS copy), the CSV serializer (`src/utils/output.ts`),
the retry helper (`src/utils/common.ts`) and the legacy result viewer's
statistics routine (the standalone `showResults` script).

JavaScript numbers are modelled as exact rationals (`ℚ`); epoch timestamps as
integers; JS strings as `List Char`.  Fallible/absent values use `Option`.
-/

namespace Benchmark

/-! ## JS primitives -/

/-- A JavaScript value that can appear in the `latencies` argument of
`calculateStats` (`latencies: (number | null)[]`, where a number may be `NaN`). -/
inductive JVal : Type where
  | num (q : ℚ)
  | nan
  | jnull
deriving DecidableEq, Repr

/-- Models `Math.round x` — rounds half toward positive infinity: `⌊x + 1/2⌋`. -/
def jsRound (q : ℚ) : ℤ := ⌊q + 1 / 2⌋

/-- Models `[...arr].sort((a, b) => a - b)` — a fresh ascending numeric sort of the
array.  Insertion sort with `≤` produces exactly the ascending rearrangement. -/
def jsSort (l : List ℚ) : List ℚ := List.insertionSort (· ≤ ·) l

/-- JS `x % 1`, the sign-preserving fractional part used by `percentile`
(for `x ≥ 0` it is `x - ⌊x⌋`). -/
def jsMod1 (q : ℚ) : ℚ := q - (if 0 ≤ q then (⌊q⌋ : ℚ) else (⌈q⌉ : ℚ))

/-! ## Statistics engine (`src/utils/stats.ts`) -/

/-- The source's `average(arr)`: `0` on the empty array, else `arr.reduce((s, v) => s + v, 0) / arr.length`. -/
def average (arr : List ℚ) : ℚ :=
  if arr.length = 0 then 0 else arr.sum / (arr.length : ℚ)

/-- The source's `median(arr)` from `stats.ts`: sorts a copy, then takes the middle element
(odd length) or the mean of the two middle elements (even length).
`sorted[i]` is modelled by `getD i 0`; every access is in range. -/
def median (arr : List ℚ) : ℚ :=
  if arr.length = 0 then 0
  else
    let sorted := jsSort arr
    let mid := sorted.length / 2
    if sorted.length % 2 = 0 then (sorted.getD (mid - 1) 0 + sorted.getD mid 0) / 2
    else sorted.getD mid 0

/-- The value `average(squareDiffs)` computed inside `standardDeviation`:
the population variance. -/
def varianceQ (arr : List ℚ) : ℚ :=
  let avg := average arr
  average (arr.map fun value => (value - avg) ^ 2)

/-- Models `Math.round (Math.sqrt q)` for `q ≥ 0`, computed exactly over `ℚ`.
Since `√q` is irrational in general, the fused rounding is modelled directly:
`⌊√q + 1/2⌋ = n` iff `(2n - 1)² ≤ 4q < (2n + 1)²` (for `n ≥ 1`), which gives
`n = (Nat.sqrt ⌊4q⌋ + 1) / 2`.  `roundSqrtQ_spec` below certifies this. -/
def roundSqrtQ (q : ℚ) : ℕ := (Nat.sqrt (⌊4 * q⌋).toNat + 1) / 2

/-- Models `Math.round(standardDeviation(arr))` as used by `calculateStats`:
`0` on the empty array, else the rounded square root of the population
variance. -/
def stdDevRounded (arr : List ℚ) : ℕ :=
  if arr.length = 0 then 0 else roundSqrtQ (varianceQ arr)

/-- The source's `percentile(arr, p)` from `stats.ts`: linear interpolation between ranks.
`index = (p/100) * (sorted.length - 1)`; `lower = ⌊index⌋`, `upper = ⌈index⌉`,
`weight = index % 1`; returns `sorted[lower]` when `lower == upper`, else
`sorted[lower]*(1-weight) + sorted[upper]*weight`.  Array reads are modelled
with `getD _ 0`; for `0 ≤ p ≤ 100` every access is in range. -/
def percentile (arr : List ℚ) (p : ℚ) : ℚ :=
  if arr.length = 0 then 0
  else
    let sorted := jsSort arr
    let index : ℚ := (p / 100) * ((sorted.length : ℚ) - 1)
    let lower := ⌊index⌋
    let upper := ⌈index⌉
    let weight := jsMod1 index
    if lower = upper then sorted.getD lower.toNat 0
    else sorted.getD lower.toNat 0 * (1 - weight) + sorted.getD upper.toNat 0 * weight

/-- The filter `latencies.filter(l => l !== null && !isNaN(l))`: keeps exactly the numeric
entries (for `l === null`, `isNaN(null)` is `false` but the first conjunct
already rejects it), read off as numbers. -/
def validOf (latencies : List JVal) : List ℚ :=
  latencies.filterMap fun l =>
    match l with
    | .num q => some q
    | .nan => none
    | .jnull => none

/-- Models `Math.min(...arr)` for a non-empty array (the empty case is never reached
in `calculateStats`; it is given the value `0` here). -/
def listMin (l : List ℚ) : ℚ :=
  match l with
  | [] => 0
  | x :: xs => xs.foldl min x

/-- Models `Math.max(...arr)` for a non-empty array. -/
def listMax (l : List ℚ) : ℚ :=
  match l with
  | [] => 0
  | x :: xs => xs.foldl max x

/-- The `Stats` record returned by `calculateStats`.  All JS fields are
numbers; the fields that are produced by `Math.round` are integers by
construction and typed accordingly. -/
structure Stats : Type where
  count : ℕ
  failures : ℕ
  average : ℤ
  txPerSecond : ℚ
  median : ℤ
  stdDev : ℕ
  min : ℚ
  max : ℚ
  p90 : ℤ
  p95 : ℤ
  p99 : ℤ
deriving DecidableEq, Repr

/-- The source's `calculateStats(latencies, failures)` from `src/utils/stats.ts`:
filters out `null`/`NaN`, returns the all-zero record (with `failures`
preserved) when nothing remains, and otherwise the full summary. -/
def calculateStats (latencies : List JVal) (failures : ℕ) : Stats :=
  let validLatencies := validOf latencies
  if validLatencies.length = 0 then
    { count := 0, failures := failures, average := 0, txPerSecond := 0,
      median := 0, stdDev := 0, min := 0, max := 0, p90 := 0, p95 := 0, p99 := 0 }
  else
    let avg := average validLatencies
    let txPerSecond := if 0 < avg then 1000 / avg else 0
    { count := validLatencies.length
      failures := failures
      average := jsRound avg
      txPerSecond := (jsRound (txPerSecond * 100) : ℚ) / 100
      median := jsRound (median validLatencies)
      stdDev := stdDevRounded validLatencies
      min := listMin validLatencies
      max := listMax validLatencies
      p90 := jsRound (percentile validLatencies 90)
      p95 := jsRound (percentile validLatencies 95)
      p99 := jsRound (percentile validLatencies 99) }

/-- The nearest-rank percentile of the legacy `showResults` script (the
standalone viewer): `sorted[Math.ceil((p/100) * sorted.length) - 1]`,
with no interpolation and no clamping. -/
def percentileNR (sorted : List ℚ) (p : ℚ) : ℚ :=
  let index : ℤ := ⌈(p / 100) * (sorted.length : ℚ)⌉ - 1
  sorted.getD index.toNat 0

/-! ## Basic facts about the embedded helpers -/

theorem jsSort_length (l : List ℚ) : (jsSort l).length = l.length :=
  (List.perm_insertionSort _ l).length_eq

theorem jsSort_sorted (l : List ℚ) : (jsSort l).Sorted (· ≤ ·) :=
  List.sorted_insertionSort _ l

theorem getD_eq_get (l : List ℚ) (i : ℕ) (h : i < l.length) :
    l.getD i 0 = l.get ⟨i, h⟩ := by
  induction l generalizing i with
  | nil => simp at h
  | cons a t ih =>
    cases i with
    | zero => rfl
    | succ n => simpa using ih n (by simpa using h)

/-- In an ascending list, the element at a smaller index is at most the
element at a larger (in-range) index. -/
theorem sorted_getD_mono {s : List ℚ} (hs : s.Sorted (· ≤ ·)) {i j : ℕ}
    (hij : i ≤ j) (hj : j < s.length) : s.getD i 0 ≤ s.getD j 0 := by
  have hi : i < s.length := lt_of_le_of_lt hij hj
  rw [getD_eq_get s i hi, getD_eq_get s j hj]
  exact hs.rel_get_of_le hij

theorem validOf_map_num (l : List ℚ) : validOf (l.map JVal.num) = l := by
  induction l with
  | nil => rfl
  | cons a t ih => simpa [validOf] using congrArg (List.cons a) ih

theorem validOf_idem (l : List JVal) :
    validOf ((validOf l).map JVal.num) = validOf l :=
  validOf_map_num _

/-- Monotonicity of `Math.round`. -/
theorem jsRound_mono {q r : ℚ} (h : q ≤ r) : jsRound q ≤ jsRound r :=
  Int.floor_le_floor (by linarith)

/-! ## The interpolated rank statistic -/

/-- Linear interpolation at (rational) rank `t` into an array:
`s[⌊t⌋] + (t - ⌊t⌋) * (s[⌈t⌉] - s[⌊t⌋])`, array reads defaulting to `0`.
This is the single closed form behind both branches of `percentile`. -/
def interpAt (s : List ℚ) (t : ℚ) : ℚ :=
  s.getD ⌊t⌋.toNat 0 + (t - ⌊t⌋) * (s.getD ⌈t⌉.toNat 0 - s.getD ⌊t⌋.toNat 0)

/-- The engine's `percentile` computes exactly `interpAt` of the sorted copy at rank
`(p/100) * (n - 1)`, for every non-empty array and `p ≥ 0`. -/
theorem percentile_eq_interpAt (l : List ℚ) (p : ℚ) (hne : l ≠ []) (hp : 0 ≤ p) :
    percentile l p = interpAt (jsSort l) ((p / 100) * ((l.length : ℚ) - 1)) := by
  have hlen : l.length ≠ 0 := fun h => hne (List.length_eq_zero.mp h)
  have hn1 : (1 : ℚ) ≤ (l.length : ℚ) := by
    exact_mod_cast Nat.one_le_iff_ne_zero.mpr hlen
  set t : ℚ := (p / 100) * ((l.length : ℚ) - 1) with ht
  have htnn : 0 ≤ t := mul_nonneg (by positivity) (by linarith)
  have hmod : jsMod1 t = t - ⌊t⌋ := by simp [jsMod1, htnn]
  simp only [percentile, jsSort_length, hmod, ← ht]
  rw [if_neg hlen]
  by_cases hfc : (⌊t⌋ : ℤ) = ⌈t⌉
  · have hint : (⌊t⌋ : ℚ) = t :=
      le_antisymm (Int.floor_le t) (by rw [hfc]; exact Int.le_ceil t)
    rw [if_pos hfc]
    unfold interpAt
    rw [hint]
    ring
  · rw [if_neg hfc]
    unfold interpAt
    ring

theorem rank_len_pos {n : ℕ} {t : ℚ} (h0 : 0 ≤ t) (h1 : t ≤ (n : ℚ) - 1) :
    1 ≤ n := by
  have : (1 : ℚ) ≤ (n : ℚ) := by linarith
  exact_mod_cast this

theorem floor_rank_le {n : ℕ} {t : ℚ} (h1 : t ≤ (n : ℚ) - 1) :
    ⌊t⌋ ≤ (n : ℤ) - 1 := by
  have h1' : t ≤ (((n : ℤ) - 1 : ℤ) : ℚ) := by push_cast; linarith
  simpa using Int.floor_le_floor h1'

theorem ceil_rank_le {n : ℕ} {t : ℚ} (h1 : t ≤ (n : ℚ) - 1) :
    ⌈t⌉ ≤ (n : ℤ) - 1 := by
  refine Int.ceil_le.mpr ?_
  push_cast
  linarith

theorem floor_toNat_lt {s : List ℚ} {t : ℚ} (h0 : 0 ≤ t)
    (h1 : t ≤ (s.length : ℚ) - 1) : ⌊t⌋.toNat < s.length := by
  have hn : 1 ≤ s.length := rank_len_pos h0 h1
  have h := floor_rank_le h1
  omega

theorem ceil_toNat_lt {s : List ℚ} {t : ℚ} (h0 : 0 ≤ t)
    (h1 : t ≤ (s.length : ℚ) - 1) : ⌈t⌉.toNat < s.length := by
  have hn : 1 ≤ s.length := rank_len_pos h0 h1
  have h := ceil_rank_le h1
  omega

theorem floor_toNat_le_ceil_toNat (t : ℚ) : ⌊t⌋.toNat ≤ ⌈t⌉.toNat :=
  Int.toNat_le_toNat (Int.floor_le_ceil t)

/-- Interpolation is bounded below by the lower sample. -/
theorem interpAt_lb {s : List ℚ} (hs : s.Sorted (· ≤ ·)) {t : ℚ}
    (h0 : 0 ≤ t) (h1 : t ≤ (s.length : ℚ) - 1) :
    s.getD ⌊t⌋.toNat 0 ≤ interpAt s t := by
  have hd : s.getD ⌊t⌋.toNat 0 ≤ s.getD ⌈t⌉.toNat 0 :=
    sorted_getD_mono hs (floor_toNat_le_ceil_toNat t) (ceil_toNat_lt h0 h1)
  have hw : 0 ≤ t - ⌊t⌋ := by
    have := Int.floor_le t
    linarith
  unfold interpAt
  nlinarith

/-- Interpolation is bounded above by the upper sample. -/
theorem interpAt_ub {s : List ℚ} (hs : s.Sorted (· ≤ ·)) {t : ℚ}
    (h0 : 0 ≤ t) (h1 : t ≤ (s.length : ℚ) - 1) :
    interpAt s t ≤ s.getD ⌈t⌉.toNat 0 := by
  have hd : s.getD ⌊t⌋.toNat 0 ≤ s.getD ⌈t⌉.toNat 0 :=
    sorted_getD_mono hs (floor_toNat_le_ceil_toNat t) (ceil_toNat_lt h0 h1)
  have hw : t - ⌊t⌋ ≤ 1 := by
    have := Int.lt_floor_add_one t
    linarith
  unfold interpAt
  nlinarith

/-- Linear interpolation into an ascending array is monotone in the rank. -/
theorem interpAt_mono {s : List ℚ} (hs : s.Sorted (· ≤ ·)) {t₁ t₂ : ℚ}
    (h0 : 0 ≤ t₁) (h12 : t₁ ≤ t₂) (h2 : t₂ ≤ (s.length : ℚ) - 1) :
    interpAt s t₁ ≤ interpAt s t₂ := by
  have h0' : 0 ≤ t₂ := le_trans h0 h12
  have h1 : t₁ ≤ (s.length : ℚ) - 1 := le_trans h12 h2
  have hk : ⌊t₁⌋ ≤ ⌊t₂⌋ := Int.floor_le_floor h12
  by_cases heq : ⌊t₁⌋ = ⌊t₂⌋
  · -- both ranks fall in the same unit interval
    by_cases hw1 : t₁ = (⌊t₁⌋ : ℚ)
    · -- lower rank is integral: its interpolation is the lower sample
      have he1 : interpAt s t₁ = s.getD ⌊t₁⌋.toNat 0 := by
        unfold interpAt
        rw [← hw1]
        ring
      rw [he1, heq]
      exact interpAt_lb hs h0' h2
    · -- both weights are positive, so both ceilings are `⌊t⌋ + 1`
      have hfl1 : (⌊t₁⌋ : ℚ) < t₁ := lt_of_le_of_ne (Int.floor_le t₁) (Ne.symm hw1)
      have hfl2 : (⌊t₂⌋ : ℚ) < t₂ := by
        rw [← heq]
        calc (⌊t₁⌋ : ℚ) < t₁ := hfl1
        _ ≤ t₂ := h12
      have hc1 : ⌈t₁⌉ = ⌊t₁⌋ + 1 := by
        have hup : ⌈t₁⌉ ≤ ⌊t₁⌋ + 1 := Int.ceil_le_floor_add_one t₁
        have hlo : ⌊t₁⌋ < ⌈t₁⌉ := by
          have := Int.le_ceil t₁
          exact_mod_cast lt_of_lt_of_le hfl1 this
        omega
      have hc2 : ⌈t₂⌉ = ⌊t₂⌋ + 1 := by
        have hup : ⌈t₂⌉ ≤ ⌊t₂⌋ + 1 := Int.ceil_le_floor_add_one t₂
        have hlo : ⌊t₂⌋ < ⌈t₂⌉ := by
          have := Int.le_ceil t₂
          exact_mod_cast lt_of_lt_of_le hfl2 this
        omega
      have hd : s.getD ⌊t₁⌋.toNat 0 ≤ s.getD ⌈t₁⌉.toNat 0 :=
        sorted_getD_mono hs (floor_toNat_le_ceil_toNat t₁) (ceil_toNat_lt h0 h1)
      unfold interpAt
      rw [hc2, ← heq, ← hc1]
      nlinarith [h12]
  · -- the ranks straddle at least one sample boundary
    have hklt : ⌊t₁⌋ < ⌊t₂⌋ := lt_of_le_of_ne hk heq
    calc interpAt s t₁ ≤ s.getD ⌈t₁⌉.toNat 0 := interpAt_ub hs h0 h1
      _ ≤ s.getD ⌊t₂⌋.toNat 0 := by
          refine sorted_getD_mono hs ?_ (floor_toNat_lt h0' h2)
          have hcu : ⌈t₁⌉ ≤ ⌊t₂⌋ := by
            have := Int.ceil_le_floor_add_one t₁
            omega
          exact Int.toNat_le_toNat hcu
      _ ≤ interpAt s t₂ := interpAt_lb hs h0' h2

/-- The engine's percentile is monotone in the level, for levels in `[0, 100]`. -/
theorem percentile_mono (l : List ℚ) {p q : ℚ} (hp : 0 ≤ p) (hpq : p ≤ q)
    (hq : q ≤ 100) : percentile l p ≤ percentile l q := by
  rcases eq_or_ne l [] with rfl | hne
  · simp [percentile]
  · have hlen : l.length ≠ 0 := fun h => hne (List.length_eq_zero.mp h)
    have hn1 : (1 : ℚ) ≤ (l.length : ℚ) := by
      exact_mod_cast Nat.one_le_iff_ne_zero.mpr hlen
    rw [percentile_eq_interpAt l p hne hp,
        percentile_eq_interpAt l q hne (le_trans hp hpq)]
    refine interpAt_mono (jsSort_sorted l) ?_ ?_ ?_
    · exact mul_nonneg (by positivity) (by linarith)
    · exact mul_le_mul_of_nonneg_right (by linarith) (by linarith)
    · rw [jsSort_length]
      calc q / 100 * ((l.length : ℚ) - 1) ≤ 1 * ((l.length : ℚ) - 1) :=
            mul_le_mul_of_nonneg_right (by linarith) (by linarith)
        _ = (l.length : ℚ) - 1 := one_mul _

/-! ## Claim theorems: statistics engine -/

/-- C7: for every latency list and failure count, the computed summary
satisfies `p90 ≤ p95 ≤ p99` — percentiles are monotone in the level for a
fixed input, including after each percentile is rounded to the nearest
integer. -/
theorem calculateStats_percentiles_monotone (latencies : List JVal) (f : ℕ) :
    (calculateStats latencies f).p90 ≤ (calculateStats latencies f).p95 ∧
    (calculateStats latencies f).p95 ≤ (calculateStats latencies f).p99 := by
  by_cases h : (validOf latencies).length = 0
  · simp [calculateStats, h]
  · simp only [calculateStats, if_neg h]
    exact ⟨jsRound_mono (percentile_mono _ (by norm_num) (by norm_num) (by norm_num)),
      jsRound_mono (percentile_mono _ (by norm_num) (by norm_num) (by norm_num))⟩

/-- C2: computing statistics over the empty latency list returns a summary
whose `count`, `average`, `txPerSecond`, `median`, `stdDev`, `min`, `max`,
`p90`, `p95` and `p99` are all `0` and whose `failures` equals `f`, for
every failure count `f`.  The embedded engine is a total function on its
whole input domain, so no input makes it throw. -/
theorem calculateStats_empty_all_zero (f : ℕ) :
    calculateStats [] f =
      { count := 0, failures := f, average := 0, txPerSecond := 0, median := 0,
        stdDev := 0, min := 0, max := 0, p90 := 0, p95 := 0, p99 := 0 } := rfl

/-- C10: `calculateStats` silently drops `null` and `NaN` entries: its result
on any mixed list equals its result on the list with those entries removed,
and the `count` field is the number of surviving numeric entries. -/
theorem calculateStats_ignores_invalid (latencies : List JVal) (f : ℕ) :
    calculateStats latencies f = calculateStats ((validOf latencies).map JVal.num) f ∧
    (calculateStats latencies f).count = (validOf latencies).length := by
  constructor
  · unfold calculateStats
    rw [validOf_map_num]
  · by_cases h : validOf latencies = []
    · simp [calculateStats, h]
    · simp [calculateStats, h]

/-- C6: for a non-empty list of non-negative latencies, `txPerSecond` is
`1000` divided by the unrounded arithmetic mean, rounded to 2 decimal
places, and it is `0` when the unrounded mean is `0`. -/
theorem txPerSecond_from_unrounded_mean (l : List ℚ) (f : ℕ) (hne : l ≠ [])
    (hnn : ∀ x ∈ l, 0 ≤ x) :
    (l.sum / (l.length : ℚ) = 0 → (calculateStats (l.map JVal.num) f).txPerSecond = 0) ∧
    (l.sum / (l.length : ℚ) ≠ 0 →
      (calculateStats (l.map JVal.num) f).txPerSecond =
        (jsRound (1000 / (l.sum / (l.length : ℚ)) * 100) : ℚ) / 100) := by
  have hlen : l.length ≠ 0 := fun h => hne (List.length_eq_zero.mp h)
  have hval : validOf (l.map JVal.num) = l := validOf_map_num l
  have havg : average l = l.sum / (l.length : ℚ) := by simp [average, hlen]
  constructor
  · intro h0
    have havg0 : ¬(0 < average l) := by rw [havg, h0]; exact lt_irrefl 0
    simp only [calculateStats, hval, if_neg hlen, if_neg havg0]
    norm_num [jsRound]
  · intro hne0
    have hsum : 0 ≤ l.sum := List.sum_nonneg hnn
    have hlpos : (0 : ℚ) < (l.length : ℚ) := by
      exact_mod_cast Nat.pos_of_ne_zero hlen
    have hmean : 0 < l.sum / (l.length : ℚ) :=
      lt_of_le_of_ne (div_nonneg hsum hlpos.le) (Ne.symm hne0)
    have havgpos : 0 < average l := by rw [havg]; exact hmean
    simp only [calculateStats, hval, if_neg hlen, if_pos havgpos, havg]
    rw [if_pos hmean]

/-- C6 witness: for latencies `[100, 200, 300, 400, 500]` with 0 failures,
`txPerSecond` is `3.33`. -/
theorem txPerSecond_witness :
    (calculateStats (([100, 200, 300, 400, 500] : List ℚ).map JVal.num) 0).txPerSecond =
      333 / 100 := by
  have h := (txPerSecond_from_unrounded_mean [100, 200, 300, 400, 500] 0
    (by simp) (by norm_num)).2 (by norm_num)
  rw [h]
  norm_num [jsRound]

/-- C1 counterexample: for latencies `[100, 200, 300, 400, 500]` with 0
failures the engine reports `p90 = 460`, not the `500` that the
nearest-rank-ceiling rule `sorted[ceil((90/100)·5) - 1] = sorted[4]`
demands. -/
theorem percentile_not_nearest_rank :
    (calculateStats (([100, 200, 300, 400, 500] : List ℚ).map JVal.num) 0).p90 = 460 ∧
    (460 : ℤ) ≠ 500 := by
  refine ⟨?_, by decide⟩
  have hc : ⌈(18 / 5 : ℚ)⌉ = 4 := by rw [Int.ceil_eq_iff]; norm_num
  norm_num [calculateStats, validOf, List.filterMap, percentile, jsSort, jsMod1, average, jsRound,
    List.insertionSort, List.orderedInsert, hc,
    show Int.toNat 3 = 3 from rfl, show Int.toNat 4 = 4 from rfl,
    List.getD_cons_succ, List.getD_cons_zero]

/-- C1 amended: the engine's percentile uses linear interpolation at rank
`(p/100)·(n-1)` — `sorted[⌊i⌋] + (i - ⌊i⌋)·(sorted[⌈i⌉] - sorted[⌊i⌋])` —
so for `[100, 200, 300, 400, 500]` it reports `p90 = 460`, `p95 = 480`,
`p99 = 496`; the nearest-rank-ceiling method `sorted[ceil((p/100)·n) - 1]`
(which yields `500` for all three levels there) is implemented only by the
legacy standalone viewer script. -/
theorem percentile_linear_interpolation :
    (∀ (l : List ℚ) (p : ℚ), l ≠ [] → 0 ≤ p →
        percentile l p = interpAt (jsSort l) ((p / 100) * ((l.length : ℚ) - 1))) ∧
    (calculateStats (([100, 200, 300, 400, 500] : List ℚ).map JVal.num) 0).p90 = 460 ∧
    (calculateStats (([100, 200, 300, 400, 500] : List ℚ).map JVal.num) 0).p95 = 480 ∧
    (calculateStats (([100, 200, 300, 400, 500] : List ℚ).map JVal.num) 0).p99 = 496 ∧
    percentileNR (jsSort [100, 200, 300, 400, 500]) 90 = 500 ∧
    percentileNR (jsSort [100, 200, 300, 400, 500]) 95 = 500 ∧
    percentileNR (jsSort [100, 200, 300, 400, 500]) 99 = 500 := by
  refine ⟨percentile_eq_interpAt, ?_, ?_, ?_, ?_, ?_, ?_⟩
  · have hc : ⌈(18 / 5 : ℚ)⌉ = 4 := by rw [Int.ceil_eq_iff]; norm_num
    norm_num [calculateStats, validOf, List.filterMap, percentile, jsSort, jsMod1, average, jsRound,
      List.insertionSort, List.orderedInsert, hc,
      show Int.toNat 3 = 3 from rfl, show Int.toNat 4 = 4 from rfl,
      List.getD_cons_succ, List.getD_cons_zero]
  · have hc : ⌈(19 / 5 : ℚ)⌉ = 4 := by rw [Int.ceil_eq_iff]; norm_num
    norm_num [calculateStats, validOf, List.filterMap, percentile, jsSort, jsMod1, average, jsRound,
      List.insertionSort, List.orderedInsert, hc,
      show Int.toNat 3 = 3 from rfl, show Int.toNat 4 = 4 from rfl,
      List.getD_cons_succ, List.getD_cons_zero]
  · have hc : ⌈(99 / 25 : ℚ)⌉ = 4 := by rw [Int.ceil_eq_iff]; norm_num
    norm_num [calculateStats, validOf, List.filterMap, percentile, jsSort, jsMod1, average, jsRound,
      List.insertionSort, List.orderedInsert, hc,
      show Int.toNat 3 = 3 from rfl, show Int.toNat 4 = 4 from rfl,
      List.getD_cons_succ, List.getD_cons_zero]
  · have hc : ⌈(9 / 2 : ℚ)⌉ = 5 := by rw [Int.ceil_eq_iff]; norm_num
    norm_num [percentileNR, jsSort, List.insertionSort, List.orderedInsert, hc,
      show Int.toNat 4 = 4 from rfl, List.getD_cons_succ, List.getD_cons_zero]
  · have hc : ⌈(19 / 4 : ℚ)⌉ = 5 := by rw [Int.ceil_eq_iff]; norm_num
    norm_num [percentileNR, jsSort, List.insertionSort, List.orderedInsert, hc,
      show Int.toNat 4 = 4 from rfl, List.getD_cons_succ, List.getD_cons_zero]
  · have hc : ⌈(99 / 20 : ℚ)⌉ = 5 := by rw [Int.ceil_eq_iff]; norm_num
    norm_num [percentileNR, jsSort, List.insertionSort, List.orderedInsert, hc,
      show Int.toNat 4 = 4 from rfl, List.getD_cons_succ, List.getD_cons_zero]

/-- C1 amended witness: the interpolation identity applied at the concrete
list `[10, 20]` and level `90` gives `10 + 0.9·(20 - 10) = 19`. -/
theorem percentile_linear_interpolation_witness : percentile [10, 20] 90 = 19 := by
  have h := percentile_linear_interpolation.1 [10, 20] 90 (by simp) (by norm_num)
  rw [h]
  have hc : ⌈(9 / 10 : ℚ)⌉ = 1 := by rw [Int.ceil_eq_iff]; norm_num
  norm_num [interpAt, jsSort, List.insertionSort, List.orderedInsert, hc,
    show Int.toNat 0 = 0 from rfl, show Int.toNat 1 = 1 from rfl,
    List.getD_cons_succ, List.getD_cons_zero]

/-! ## CSV serialization (`src/utils/output.ts`) -/

/-- The `'success' | 'failed'` status union of a transaction record. -/
inductive TxStatus : Type where
  | success
  | failed
deriving DecidableEq, Repr

/-- Rendering of the status strings. -/
def statusChars : TxStatus → List Char
  | .success => "success".toList
  | .failed => "failed".toList

/-- The fields of a `TransactionResult` that `resultsToCSV` reads (the
protocol-specific optional fields — block hash, slot, gas, … — are never
consulted by the CSV serializer and are omitted).  `txId` and `error` are
`string | null` / optional strings; `latency` is `number | null` (an
integer difference of epoch timestamps). -/
structure TransactionResult : Type where
  txId : Option (List Char)
  sendTime : ℤ
  finalTime : ℤ
  latency : Option ℤ
  status : TxStatus
  error : Option (List Char)

/-- Models `String(n)` for an integer-valued JS number: decimal rendering. -/
def intToChars (n : ℤ) : List Char :=
  if n < 0 then '-' :: Nat.toDigits 10 n.natAbs else Nat.toDigits 10 n.toNat

/-- Zero-padding to width 2. -/
def pad2 (n : ℕ) : List Char :=
  if n < 10 then '0' :: Nat.toDigits 10 n else Nat.toDigits 10 n

/-- Zero-padding to width 3. -/
def pad3 (n : ℕ) : List Char :=
  if n < 10 then '0' :: '0' :: Nat.toDigits 10 n
  else if n < 100 then '0' :: Nat.toDigits 10 n
  else Nat.toDigits 10 n

/-- Zero-padding to width 4. -/
def pad4 (n : ℕ) : List Char :=
  if n < 10 then '0' :: '0' :: '0' :: Nat.toDigits 10 n
  else if n < 100 then '0' :: '0' :: Nat.toDigits 10 n
  else if n < 1000 then '0' :: Nat.toDigits 10 n
  else Nat.toDigits 10 n

/-- Models `new Date(ms).toISOString()` for years 0–9999: the proleptic-Gregorian
civil date of the UTC day (computed with the standard days-from-epoch
conversion) and the time of day, rendered as `YYYY-MM-DDTHH:mm:ss.sssZ`. -/
def isoChars (ms : ℤ) : List Char :=
  let days : ℤ := Int.fdiv ms 86400000
  let msOfDay : ℕ := (Int.fmod ms 86400000).toNat
  let hh := msOfDay / 3600000
  let mm := msOfDay % 3600000 / 60000
  let ss := msOfDay % 60000 / 1000
  let mmm := msOfDay % 1000
  let z : ℤ := days + 719468
  let era : ℤ := Int.fdiv z 146097
  let doe : ℕ := (z - era * 146097).toNat
  let yoe : ℕ := (doe - doe / 1460 + doe / 36524 - doe / 146096) / 365
  let doy : ℕ := doe - (365 * yoe + yoe / 4 - yoe / 100)
  let mp : ℕ := (5 * doy + 2) / 153
  let d : ℕ := doy - (153 * mp + 2) / 5 + 1
  let m : ℕ := if mp < 10 then mp + 3 else mp - 9
  let y : ℤ := (yoe : ℤ) + era * 400 + (if m ≤ 2 then 1 else 0)
  pad4 y.toNat ++ '-' :: pad2 m ++ '-' :: pad2 d ++ 'T' ::
    pad2 hh ++ ':' :: pad2 mm ++ ':' :: pad2 ss ++ '.' :: pad3 mmm ++ ['Z']

/-- The literal `'N/A'`. -/
def naChars : List Char := "N/A".toList

/-- One row of `resultsToCSV` before escaping: the 7-cell array
`[network, r.txId || 'N/A', ISO(sendTime), ISO(finalTime),
r.latency || 'N/A', r.status, r.error || '']`.  The `||` fallbacks follow
JS truthiness: the empty string and the number `0` are falsy. -/
def rowCells (network : List Char) (r : TransactionResult) : List (List Char) :=
  [ network,
    match r.txId with
    | some s => if s = [] then naChars else s
    | none => naChars,
    isoChars r.sendTime,
    isoChars r.finalTime,
    match r.latency with
    | some l => if l = 0 then naChars else intToChars l
    | none => naChars,
    statusChars r.status,
    (r.error).getD [] ]

/-- Does a cell need CSV quoting?  `str.includes(',') || str.includes('"')
|| str.includes('\n')`. -/
def needsQuoting (s : List Char) : Bool :=
  s.any fun c => c = ',' || c = '"' || c = '\n'

/-- Models `str.replace(/"/g, '""')`: double every double quote. -/
def escapeQuotes : List Char → List Char
  | [] => []
  | c :: cs => if c = '"' then '"' :: '"' :: escapeQuotes cs else c :: escapeQuotes cs

/-- The per-cell escaping of `resultsToCSV`: quote-wrap (with doubled inner
quotes) exactly when the cell contains a comma, a quote or a newline. -/
def escapeCell (s : List Char) : List Char :=
  if needsQuoting s then '"' :: (escapeQuotes s ++ ['"']) else s

/-- The fixed header cells of `resultsToCSV`. -/
def headersCSV : List (List Char) :=
  [ "network".toList, "tx_id".toList, "send_time".toList, "final_time".toList,
    "latency_ms".toList, "status".toList, "error".toList ]

/-- Models `Array.prototype.join(sep)` on a list of strings. -/
def joinSep (sep : Char) : List (List Char) → List Char
  | [] => []
  | [l] => l
  | l :: m :: ls => l ++ sep :: joinSep sep (m :: ls)

/-- The source's `resultsToCSV(results, network)`: the header line followed by one
escaped, comma-joined row per record, all joined with `'\n'`. -/
def resultsToCSV (results : List TransactionResult) (network : List Char) :
    List Char :=
  joinSep '\n'
    (joinSep ',' headersCSV ::
      results.map fun r => joinSep ',' ((rowCells network r).map escapeCell))

/-! ## A compliant CSV field reader (specification side, for round-trips) -/

/-- Collapse doubled quotes, the inverse step of `escapeQuotes`. -/
def unescapeQuotes : List Char → List Char
  | [] => []
  | [c] => [c]
  | c :: d :: cs =>
    if c = '"' then
      if d = '"' then '"' :: unescapeQuotes cs
      else c :: unescapeQuotes (d :: cs)
    else c :: unescapeQuotes (d :: cs)

/-- An RFC 4180-compliant parse of one serialized field: a field starting
with a quote is unwrapped and its doubled quotes collapsed; any other field
is taken verbatim. -/
def parseField (f : List Char) : List Char :=
  match f with
  | [] => []
  | c :: rest => if c = '"' then unescapeQuotes rest.dropLast else c :: rest

/-! ## Multi-network CSV concatenation (`saveResults`) -/

/-- JS `content.split('\n')` (always returns at least one string). -/
def splitNl : List Char → List (List Char)
  | [] => [[]]
  | c :: cs =>
    if c = '\n' then [] :: splitNl cs
    else
      match splitNl cs with
      | [] => [[c]]
      | l :: ls => (c :: l) :: ls

/-- Models `lines.slice(1).join('\n')`: a CSV block with its first physical line
(the header) removed. -/
def dropHeaderLine (block : List Char) : List Char :=
  joinSep '\n' ((splitNl block).drop 1)

/-- The CSV-combination loop of `saveResults`: the first network's block is
taken whole; every further block is appended as `'\n' +
lines.slice(1).join('\n')`. -/
def combineBlocks : List (List Char) → List Char
  | [] => []
  | b :: bs => bs.foldl (fun acc blk => acc ++ '\n' :: dropHeaderLine blk) b

/-! ## CSV escaping round-trip facts -/

theorem unescapeQuotes_cons {c : Char} (hc : c ≠ '"') (r : List Char) :
    unescapeQuotes (c :: r) = c :: unescapeQuotes r := by
  cases r with
  | nil => rfl
  | cons d rs => simp [unescapeQuotes, hc]

theorem unescapeQuotes_quote_quote (r : List Char) :
    unescapeQuotes ('"' :: '"' :: r) = '"' :: unescapeQuotes r := by
  simp [unescapeQuotes]

/-- Doubling all quotes then collapsing doubled quotes is the identity. -/
theorem unescape_escape (s : List Char) : unescapeQuotes (escapeQuotes s) = s := by
  induction s with
  | nil => rfl
  | cons c cs ih =>
    by_cases hc : c = '"'
    · subst hc
      rw [show escapeQuotes ('"' :: cs) = '"' :: '"' :: escapeQuotes cs by
            simp [escapeQuotes],
          unescapeQuotes_quote_quote, ih]
    · rw [show escapeQuotes (c :: cs) = c :: escapeQuotes cs by simp [escapeQuotes, hc],
          unescapeQuotes_cons hc, ih]

/-- A field that needs no quoting starts with no quote character. -/
theorem head_ne_quote_of_not_needsQuoting {c : Char} {cs : List Char}
    (h : needsQuoting (c :: cs) = false) : c ≠ '"' := by
  intro hc
  subst hc
  simp [needsQuoting] at h

/-! ## Splitting and joining on newlines -/

theorem splitNl_ne_nil (s : List Char) : splitNl s ≠ [] := by
  cases s with
  | nil => simp [splitNl]
  | cons c cs =>
    simp only [splitNl]
    split
    · simp
    · split
      · simp
      · simp

theorem joinSep_cons_cons (sep : Char) (l m : List Char) (ls : List (List Char)) :
    joinSep sep (l :: m :: ls) = l ++ sep :: joinSep sep (m :: ls) := rfl

/-- Joining undoes splitting: `lines.join('\n')` recovers the content. -/
theorem joinSep_splitNl (s : List Char) : joinSep '\n' (splitNl s) = s := by
  induction s with
  | nil => rfl
  | cons c cs ih =>
    obtain ⟨l, ls, hsp⟩ : ∃ l ls, splitNl cs = l :: ls := by
      rcases h : splitNl cs with _ | ⟨l, ls⟩
      · exact absurd h (splitNl_ne_nil cs)
      · exact ⟨l, ls, rfl⟩
    by_cases hc : c = '\n'
    · subst hc
      rw [show splitNl ('\n' :: cs) = [] :: splitNl cs by simp [splitNl], hsp,
          joinSep_cons_cons, ← hsp, ih]
      rfl
    · rw [show splitNl (c :: cs) = (c :: l) :: ls by
            simp only [splitNl, if_neg hc, hsp]] at *
      cases ls with
      | nil =>
        have hl : l = cs := by rw [hsp] at ih; exact ih
        simp [joinSep, hl]
      | cons m ms =>
        rw [joinSep_cons_cons, List.cons_append]
        rw [hsp] at ih
        rw [← joinSep_cons_cons, ih]

/-- Splitting a block whose first line contains no newline peels that line. -/
theorem splitNl_header (h d : List Char) (hh : ∀ c ∈ h, c ≠ '\n') :
    splitNl (h ++ '\n' :: d) = h :: splitNl d := by
  induction h with
  | nil => simp [splitNl]
  | cons c cs ih =>
    have hc : c ≠ '\n' := hh c (by simp)
    have ih' := ih fun x hx => hh x (by simp [hx])
    rw [List.cons_append]
    simp only [splitNl, if_neg hc, ih']

/-- Dropping the header of a well-formed block recovers its data part. -/
theorem dropHeaderLine_header (h d : List Char) (hh : ∀ c ∈ h, c ≠ '\n') :
    dropHeaderLine (h ++ '\n' :: d) = d := by
  unfold dropHeaderLine
  rw [splitNl_header h d hh]
  simpa using joinSep_splitNl d

/-- The suffix contributed by the non-first blocks. -/
def joinTail : List (List Char) → List Char
  | [] => []
  | x :: t => '\n' :: (x ++ joinTail t)

theorem joinSep_eq_joinTail (d : List Char) (ds : List (List Char)) :
    joinSep '\n' (d :: ds) = d ++ joinTail ds := by
  induction ds generalizing d with
  | nil => simp [joinSep, joinTail]
  | cons x t ih => rw [joinSep_cons_cons, ih x, joinTail]

theorem combineBlocks_aux (hdr : List Char) (hh : ∀ c ∈ hdr, c ≠ '\n') :
    ∀ (ds : List (List Char)) (acc : List Char),
      List.foldl (fun acc blk => acc ++ '\n' :: dropHeaderLine blk) acc
        (ds.map fun x => hdr ++ '\n' :: x) = acc ++ joinTail ds := by
  intro ds
  induction ds with
  | nil => intro acc; simp [joinTail]
  | cons x t ih =>
    intro acc
    rw [List.map_cons, List.foldl_cons, dropHeaderLine_header hdr x hh, ih, joinTail]
    simp

/-! ## Claim theorems: CSV serialization -/

/-- C3 counterexample: a successful record with a latency of `0` renders its
`latency_ms` cell as `N/A` (because `0` is falsy under `r.latency || 'N/A'`),
not as the decimal rendering `0` that the claim demands for every non-null
latency. -/
theorem latency_zero_renders_na :
    (rowCells "near".toList
        { txId := some "abc".toList, sendTime := 0, finalTime := 0,
          latency := some 0, status := .success, error := none }).getD 4 []
      = "N/A".toList ∧
    "N/A".toList ≠ "0".toList := by
  exact ⟨rfl, by decide⟩

/-- C3 amended: the fallbacks follow JS truthiness.  `latency_ms` is `N/A`
exactly when the latency is `null` or `0`, and the decimal rendering of the
latency otherwise; `tx_id` is `N/A` exactly when the id is `null` or the
empty string, and the id itself otherwise; `error` is the error string,
with the empty string when absent. -/
theorem rowCells_falsy_fallbacks (network : List Char) (r : TransactionResult) :
    ((r.latency = none ∨ r.latency = some 0) →
        (rowCells network r).getD 4 [] = naChars) ∧
    (∀ l : ℤ, r.latency = some l → l ≠ 0 →
        (rowCells network r).getD 4 [] = intToChars l) ∧
    ((r.txId = none ∨ r.txId = some []) →
        (rowCells network r).getD 1 [] = naChars) ∧
    (∀ s, r.txId = some s → s ≠ [] → (rowCells network r).getD 1 [] = s) ∧
    (r.error = none → (rowCells network r).getD 6 [] = []) ∧
    (∀ s, r.error = some s → (rowCells network r).getD 6 [] = s) := by
  refine ⟨?_, ?_, ?_, ?_, ?_, ?_⟩
  · rintro (h | h) <;> simp [rowCells, h]
  · intro l hl hne
    simp [rowCells, hl, hne]
  · rintro (h | h) <;> simp [rowCells, h]
  · intro s hs hne
    simp [rowCells, hs, hne]
  · intro h
    simp [rowCells, h]
  · intro s hs
    simp [rowCells, hs]

/-- C3 amended witness: a record with latency `7` renders `latency_ms` as
`7`, and a record with latency `0` renders it as `N/A`. -/
theorem rowCells_falsy_fallbacks_witness :
    (rowCells "near".toList
        { txId := some "abc".toList, sendTime := 0, finalTime := 7,
          latency := some 7, status := .success, error := none }).getD 4 []
      = "7".toList := by
  have h := (rowCells_falsy_fallbacks "near".toList
    { txId := some "abc".toList, sendTime := 0, finalTime := 7,
      latency := some 7, status := .success, error := none }).2.1 7 rfl (by decide)
  rw [h]
  rfl

/-- C4: every emitted cell containing a comma, double quote or newline is
wrapped in double quotes with internal quotes doubled; every other cell is
emitted verbatim; a compliant CSV field reader recovers the original string
from every escaped cell; and the concrete error text
`He said, "hello"` + newline + `bye` serializes to
`"He said, ""hello""` + newline + `bye"`. -/
theorem csv_escaping_rfc4180 :
    (∀ s : List Char, needsQuoting s = true →
        escapeCell s = '"' :: (escapeQuotes s ++ ['"'])) ∧
    (∀ s : List Char, needsQuoting s = false → escapeCell s = s) ∧
    (∀ s : List Char, parseField (escapeCell s) = s) ∧
    escapeCell ("He said, \"hello\"\nbye").toList
      = ("\"He said, \"\"hello\"\"\nbye\"").toList := by
  have hq : ∀ s : List Char, needsQuoting s = true →
      escapeCell s = '"' :: (escapeQuotes s ++ ['"']) := by
    intro s hs
    simp [escapeCell, hs]
  have hnq : ∀ s : List Char, needsQuoting s = false → escapeCell s = s := by
    intro s hs
    simp [escapeCell, hs]
  refine ⟨hq, hnq, ?_, by decide⟩
  intro s
  by_cases hs : needsQuoting s = true
  · rw [hq s hs]
    have hdrop : (escapeQuotes s ++ ['"']).dropLast = escapeQuotes s := by
      rw [List.dropLast_concat]
    simp [parseField, hdrop, unescape_escape]
  · have hs' : needsQuoting s = false := by
      cases h : needsQuoting s
      · rfl
      · exact absurd h hs
    rw [hnq s hs']
    cases s with
    | nil => rfl
    | cons c cs =>
      have hc : c ≠ '"' := head_ne_quote_of_not_needsQuoting hs'
      simp [parseField, hc]

/-- C4 witness: the escaping contract applied to the concrete cell `a,b`. -/
theorem csv_escaping_rfc4180_witness :
    escapeCell ("a,b").toList = ("\"a,b\"").toList := by
  have h := csv_escaping_rfc4180.1 ("a,b").toList (by decide)
  rw [h]
  rfl

/-- Three successful sample records used for the concrete concatenation
scenario. -/
def exResult (lat : ℤ) : TransactionResult :=
  { txId := some "tx".toList, sendTime := 0, finalTime := lat, latency := some lat,
    status := .success, error := none }

/-- A 3-row CSV block for one network. -/
def blockA : List Char :=
  resultsToCSV [exResult 1000, exResult 1200, exResult 900] "near".toList

/-- A 3-row CSV block for a second network. -/
def blockB : List Char :=
  resultsToCSV [exResult 500, exResult 600, exResult 700] "evm".toList

/-- C5: when `saveResults` combines per-network CSV blocks, only the first
block's header line is kept: the combined content is the shared header
followed by every block's data part in network order; combining two 3-row
blocks yields exactly 7 physical lines (1 header + 6 data rows), the first
of which is the header, and the header occurs exactly once. -/
theorem saveResults_single_header :
    (∀ hdr : List Char, (∀ c ∈ hdr, c ≠ '\n') →
      ∀ (d : List Char) (ds : List (List Char)),
        combineBlocks ((d :: ds).map fun x => hdr ++ '\n' :: x) =
          hdr ++ '\n' :: joinSep '\n' (d :: ds)) ∧
    (splitNl (combineBlocks [blockA, blockB])).length = 7 ∧
    (splitNl (combineBlocks [blockA, blockB])).count (joinSep ',' headersCSV) = 1 ∧
    (splitNl (combineBlocks [blockA, blockB])).getD 0 [] = joinSep ',' headersCSV := by
  refine ⟨?_, by decide, by decide, by decide⟩
  intro hdr hh d ds
  show List.foldl (fun acc blk => acc ++ '\n' :: dropHeaderLine blk)
      (hdr ++ '\n' :: d) (ds.map fun x => hdr ++ '\n' :: x) = _
  rw [combineBlocks_aux hdr hh ds (hdr ++ '\n' :: d), joinSep_eq_joinTail]
  simp

/-- C5 witness: the concatenation identity at a tiny concrete instance —
header `h`, data lines `a` and `b`. -/
theorem saveResults_single_header_witness :
    combineBlocks [('h' :: '\n' :: ['a']), ('h' :: '\n' :: ['b'])] =
      ['h', '\n', 'a', '\n', 'b'] := by
  have h := saveResults_single_header.1 ['h'] (by decide) ['a'] [['b']]
  simpa using h

/-! ## Retry with exponential backoff (`src/utils/common.ts`) -/

/-- The `for (let i = 0; i < maxRetries; i++)` loop of `retry`, entered at
iteration `i`.  The wrapped async closure is modelled by the sequence `fn`
of its successive outcomes (`fn j` is what the `j`-th call does).  Returns
the propagated outcome (`none` stands for the unreachable
`throw new Error('Retry failed')` after the loop), the number of calls made
from iteration `i` on, and the list of back-off sleeps performed, in order:
after the failed call at iteration `j` (when it is not the last) the loop
sleeps `baseDelay * 2 ^ j`. -/
def retryLoop {ε α : Type} (fn : ℕ → Except ε α) (maxRetries : ℕ)
    (baseDelay : ℚ) (i : ℕ) : Option (Except ε α) × ℕ × List ℚ :=
  if i < maxRetries then
    match fn i with
    | .ok v => (some (.ok v), 1, [])
    | .error e =>
      if i = maxRetries - 1 then (some (.error e), 1, [])
      else
        let r := retryLoop fn maxRetries baseDelay (i + 1)
        (r.1, r.2.1 + 1, baseDelay * 2 ^ i :: r.2.2)
  else (none, 0, [])
termination_by maxRetries - i
decreasing_by omega

/-- The source's `retry(fn, maxRetries, baseDelay)`: the loop started at iteration 0. -/
def retry {ε α : Type} (fn : ℕ → Except ε α) (maxRetries : ℕ)
    (baseDelay : ℚ) : Option (Except ε α) × ℕ × List ℚ :=
  retryLoop fn maxRetries baseDelay 0

theorem retryLoop_calls_le {ε α : Type} (fn : ℕ → Except ε α) (m : ℕ) (b : ℚ) :
    ∀ k i, m - i = k → (retryLoop fn m b i).2.1 ≤ m - i := by
  intro k
  induction k with
  | zero =>
    intro i hk
    have hge : ¬i < m := by omega
    rw [retryLoop, if_neg hge]
    simp
  | succ n ih =>
    intro i hk
    have hlt : i < m := by omega
    rw [retryLoop, if_pos hlt]
    cases fn i with
    | ok v => simpa using by omega
    | error e =>
      by_cases hlast : i = m - 1
      · simp only [if_pos hlast]
        omega
      · simp only [if_neg hlast]
        have := ih (i + 1) (by omega)
        simpa using by omega

theorem retryLoop_first_success {ε α : Type} (fn : ℕ → Except ε α) (m : ℕ) (b : ℚ)
    (s : ℕ) (v : α) (hsm : s < m) (hok : fn s = .ok v)
    (hfail : ∀ j, j < s → ∃ e, fn j = .error e) :
    ∀ k i, s - i = k → i ≤ s →
      retryLoop fn m b i =
        (some (.ok v), s - i + 1, (List.range' i (s - i)).map fun j => b * 2 ^ j) := by
  intro k
  induction k with
  | zero =>
    intro i hk his
    have hi : i = s := by omega
    subst hi
    rw [retryLoop, if_pos hsm, hok]
    simp
  | succ n ih =>
    intro i hk his
    have hlt : i < m := by omega
    have his' : i < s := by omega
    obtain ⟨e, he⟩ := hfail i his'
    have hlast : i ≠ m - 1 := by omega
    rw [retryLoop, if_pos hlt, he]
    simp only [if_neg hlast]
    rw [ih (i + 1) (by omega) (by omega)]
    have hr : s - i = (s - (i + 1)) + 1 := by omega
    rw [hr, List.range'_succ]
    simp

theorem retryLoop_all_fail {ε α : Type} (fn : ℕ → Except ε α) (m : ℕ) (b : ℚ)
    (e : ε) (hm : 1 ≤ m) (hlast : fn (m - 1) = .error e)
    (hfail : ∀ j, j < m → ∃ e', fn j = .error e') :
    ∀ k i, m - 1 - i = k → i ≤ m - 1 →
      retryLoop fn m b i =
        (some (.error e), m - i, (List.range' i (m - 1 - i)).map fun j => b * 2 ^ j) := by
  intro k
  induction k with
  | zero =>
    intro i hk his
    have hi : i = m - 1 := by omega
    subst hi
    rw [retryLoop, if_pos (by omega), hlast]
    simp only [if_pos rfl]
    have : m - (m - 1) = 1 := by omega
    simp [this]
  | succ n ih =>
    intro i hk his
    have hlt : i < m := by omega
    have hne : i ≠ m - 1 := by omega
    obtain ⟨e', he'⟩ := hfail i (by omega)
    rw [retryLoop, if_pos hlt, he']
    simp only [if_neg hne]
    rw [ih (i + 1) (by omega) (by omega)]
    have hr : m - 1 - i = (m - 1 - (i + 1)) + 1 := by omega
    rw [hr, List.range'_succ]
    have : m - i = (m - (i + 1)) + 1 := by omega
    simp [this]

/-- C9: with `maxRetries ≥ 1`, `retry` makes at most `maxRetries` calls; if
the first success is at attempt `i < maxRetries` it returns that value after
`i + 1` calls, having slept `baseDelay * 2^j` after each failed attempt
`j < i`; and if every attempt fails it propagates the last attempt's error
verbatim after exactly `maxRetries` calls, having slept `baseDelay * 2^j`
after each failed attempt except the last. -/
theorem retry_spec {ε α : Type} (fn : ℕ → Except ε α) (maxRetries : ℕ)
    (baseDelay : ℚ) (hmax : 1 ≤ maxRetries) :
    ((retry fn maxRetries baseDelay).2.1 ≤ maxRetries) ∧
    (∀ i v, i < maxRetries → (∀ j, j < i → ∃ e, fn j = .error e) → fn i = .ok v →
      retry fn maxRetries baseDelay =
        (some (.ok v), i + 1, (List.range i).map fun j => baseDelay * 2 ^ j)) ∧
    (∀ e, (∀ j, j < maxRetries → ∃ e', fn j = .error e') →
      fn (maxRetries - 1) = .error e →
      retry fn maxRetries baseDelay =
        (some (.error e), maxRetries,
          (List.range (maxRetries - 1)).map fun j => baseDelay * 2 ^ j)) := by
  refine ⟨?_, ?_, ?_⟩
  · simpa using retryLoop_calls_le fn maxRetries baseDelay maxRetries 0 (by omega)
  · intro i v him hfail hok
    have h := retryLoop_first_success fn maxRetries baseDelay i v him hok hfail
      i 0 (by omega) (by omega)
    rw [retry, h, List.range_eq_range']
    simp
  · intro e hfail hlast
    have h := retryLoop_all_fail fn maxRetries baseDelay e hmax hlast hfail
      (maxRetries - 1) 0 (by omega) (by omega)
    rw [retry, h, List.range_eq_range']
    simp

/-- C9 witness: a closure that fails once with error code `0` and then
returns `42`, retried up to 3 times with base delay 5, returns `42` after
2 calls and a single 5 ms sleep. -/
theorem retry_spec_witness :
    retry (fun j => if j = 0 then Except.error 0 else Except.ok 42) 3 5 =
      (some (Except.ok 42), 2, [5]) := by
  have h := (retry_spec (fun j => if j = 0 then Except.error (0 : ℕ) else Except.ok (42 : ℕ))
      3 5 (by omega)).2.1 1 42 (by omega)
      (fun j hj => ⟨0, by interval_cases j; rfl⟩) (by rfl)
  rw [h]
  norm_num [List.range_succ]

/-! ## Heap model of array mutation (frame property of the engine) -/

/-- A store of JS arrays, addressed by allocation order.  `[...arr]` and
`filter` allocate fresh addresses; `Array.prototype.sort` writes to its
receiver's address. -/
abbrev Store : Type := List (List JVal)

/-- Read the array at address `a`. -/
def readArr (st : Store) (a : ℕ) : List JVal := st.getD a []

/-- Overwrite the array at address `a` (the in-place effect of `.sort`). -/
def writeArr (st : Store) (a : ℕ) (v : List JVal) : Store := st.set a v

/-- The numeric contents of a JS array of numbers. -/
def numsOf (l : List JVal) : List ℚ :=
  l.map fun v =>
    match v with
    | .num q => q
    | .nan => 0
    | .jnull => 0

/-- The same filter as an array-producing
operation: a fresh array holding exactly the numeric entries. -/
def filterValid (l : List JVal) : List JVal :=
  l.filter fun v =>
    match v with
    | .num _ => true
    | .nan => false
    | .jnull => false

/-- The source's `median` with the array mutation explicit: `[...arr]` allocates a fresh
copy at address `st.length`, `.sort((a,b) => a-b)` overwrites that copy in
place, and the argument address `a` is only ever read. -/
def medianS (st : Store) (a : ℕ) : ℚ × Store :=
  let arr := numsOf (readArr st a)
  if arr.length = 0 then (0, st)
  else
    let c := st.length
    let st1 := st ++ [readArr st a]
    let st2 := writeArr st1 c ((jsSort (numsOf (readArr st1 c))).map JVal.num)
    let sorted := numsOf (readArr st2 c)
    let mid := sorted.length / 2
    if sorted.length % 2 = 0 then
      ((sorted.getD (mid - 1) 0 + sorted.getD mid 0) / 2, st2)
    else (sorted.getD mid 0, st2)

/-- The source's `percentile` with the array mutation explicit, exactly as `medianS`. -/
def percentileS (st : Store) (a : ℕ) (p : ℚ) : ℚ × Store :=
  let arr := numsOf (readArr st a)
  if arr.length = 0 then (0, st)
  else
    let c := st.length
    let st1 := st ++ [readArr st a]
    let st2 := writeArr st1 c ((jsSort (numsOf (readArr st1 c))).map JVal.num)
    let sorted := numsOf (readArr st2 c)
    let index : ℚ := (p / 100) * ((sorted.length : ℚ) - 1)
    let lower := ⌊index⌋
    let upper := ⌈index⌉
    let weight := jsMod1 index
    if lower = upper then (sorted.getD lower.toNat 0, st2)
    else
      (sorted.getD lower.toNat 0 * (1 - weight) + sorted.getD upper.toNat 0 * weight, st2)

/-- The source's `calculateStats` with the array mutation explicit: the argument address
`a` is read once, `filter` allocates the `validLatencies` array at a fresh
address `v`, and the median/percentile calls work on `v` and on their own
fresh copies. -/
def calculateStatsS (st : Store) (a : ℕ) (failures : ℕ) : Stats × Store :=
  let latencies := readArr st a
  let v := st.length
  let st1 := st ++ [filterValid latencies]
  let validLatencies := numsOf (readArr st1 v)
  if validLatencies.length = 0 then
    ({ count := 0, failures := failures, average := 0, txPerSecond := 0,
       median := 0, stdDev := 0, min := 0, max := 0, p90 := 0, p95 := 0, p99 := 0 },
      st1)
  else
    let avg := average validLatencies
    let tx := if 0 < avg then 1000 / avg else 0
    let r1 := medianS st1 v
    let r2 := percentileS r1.2 v 90
    let r3 := percentileS r2.2 v 95
    let r4 := percentileS r3.2 v 99
    ({ count := validLatencies.length
       failures := failures
       average := jsRound avg
       txPerSecond := (jsRound (tx * 100) : ℚ) / 100
       median := jsRound r1.1
       stdDev := stdDevRounded validLatencies
       min := listMin validLatencies
       max := listMax validLatencies
       p90 := jsRound r2.1
       p95 := jsRound r3.1
       p99 := jsRound r4.1 }, r4.2)

theorem readArr_append {st : Store} {x : List JVal} {a : ℕ} (h : a < st.length) :
    readArr (st ++ [x]) a = readArr st a :=
  List.getD_append _ _ _ _ h

theorem readArr_append_last (st : Store) (x : List JVal) :
    readArr (st ++ [x]) st.length = x := by
  simp [readArr, List.getD]

theorem readArr_write_ne {st : Store} {c a : ℕ} {v : List JVal} (h : c ≠ a) :
    readArr (writeArr st c v) a = readArr st a := by
  simp [readArr, writeArr, List.getD, List.getElem?_set_ne h]

theorem readArr_write_self {st : Store} {c : ℕ} {v : List JVal}
    (h : c < st.length) : readArr (writeArr st c v) c = v := by
  simp [readArr, writeArr, List.getD, List.getElem?_set_eq_of_lt v h]

theorem numsOf_map_num (l : List ℚ) : numsOf (l.map JVal.num) = l := by
  induction l with
  | nil => rfl
  | cons a t ih => simpa [numsOf] using congrArg (List.cons a) ih

theorem numsOf_filterValid (l : List JVal) : numsOf (filterValid l) = validOf l := by
  induction l with
  | nil => rfl
  | cons a t ih =>
    cases a <;> simpa [filterValid, validOf, numsOf] using ih

/-- The store-level `medianS` only reads its argument array and returns a strictly larger
store whose old addresses are untouched. -/
theorem medianS_frame (st : Store) (b : ℕ) {a : ℕ} (h : a < st.length) :
    readArr (medianS st b).2 a = readArr st a ∧
    st.length ≤ (medianS st b).2.length := by
  unfold medianS
  by_cases hlen : (numsOf (readArr st b)).length = 0
  · simp [hlen]
  · simp only [if_neg hlen]
    have hne : st.length ≠ a := by omega
    constructor
    · split
      · rw [readArr_write_ne hne, readArr_append h]
      · rw [readArr_write_ne hne, readArr_append h]
    · split
      · simp [writeArr]
      · simp [writeArr]

/-- The store-level `percentileS` only reads its argument array and returns a strictly larger
store whose old addresses are untouched. -/
theorem percentileS_frame (st : Store) (b : ℕ) (p : ℚ) {a : ℕ} (h : a < st.length) :
    readArr (percentileS st b p).2 a = readArr st a ∧
    st.length ≤ (percentileS st b p).2.length := by
  unfold percentileS
  by_cases hlen : (numsOf (readArr st b)).length = 0
  · simp [hlen]
  · simp only [if_neg hlen]
    have hne : st.length ≠ a := by omega
    constructor
    · split
      · rw [readArr_write_ne hne, readArr_append h]
      · rw [readArr_write_ne hne, readArr_append h]
    · split
      · simp [writeArr]
      · simp [writeArr]

/-- The store-level median computes the pure `median` of the argument. -/
theorem medianS_value (st : Store) (a : ℕ) :
    (medianS st a).1 = median (numsOf (readArr st a)) := by
  unfold medianS median
  by_cases hlen : (numsOf (readArr st a)).length = 0
  · simp [hlen]
  · simp only [if_neg hlen]
    have hc : st.length < (st ++ [readArr st a]).length := by simp
    rw [readArr_append_last, readArr_write_self hc, numsOf_map_num]
    by_cases hpar : (jsSort (numsOf (readArr st a))).length % 2 = 0
    · simp [hpar]
    · simp [hpar]

/-- The store-level percentile computes the pure `percentile`. -/
theorem percentileS_value (st : Store) (a : ℕ) (p : ℚ) :
    (percentileS st a p).1 = percentile (numsOf (readArr st a)) p := by
  unfold percentileS percentile
  by_cases hlen : (numsOf (readArr st a)).length = 0
  · simp [hlen]
  · simp only [if_neg hlen]
    have hc : st.length < (st ++ [readArr st a]).length := by simp
    rw [readArr_append_last, readArr_write_self hc, numsOf_map_num]
    split
    · rfl
    · rfl

theorem calculateStatsS_frame (st : Store) (a f : ℕ) {b : ℕ} (hb : b < st.length) :
    readArr (calculateStatsS st a f).2 b = readArr st b := by
  unfold calculateStatsS
  by_cases hlen : (numsOf (readArr (st ++ [filterValid (readArr st a)]) st.length)).length = 0
  · simp only [if_pos hlen]
    exact readArr_append hb
  · simp only [if_neg hlen]
    set st1 : Store := st ++ [filterValid (readArr st a)] with hst1
    have hb1 : b < st1.length := by simp [hst1]; omega
    obtain ⟨e1, l1⟩ := medianS_frame st1 st.length hb1
    have hb2 : b < (medianS st1 st.length).2.length := lt_of_lt_of_le hb1 l1
    obtain ⟨e2, l2⟩ := percentileS_frame (medianS st1 st.length).2 st.length 90 hb2
    have hb3 : b < (percentileS (medianS st1 st.length).2 st.length 90).2.length :=
      lt_of_lt_of_le hb2 l2
    obtain ⟨e3, l3⟩ := percentileS_frame
      (percentileS (medianS st1 st.length).2 st.length 90).2 st.length 95 hb3
    have hb4 : b < (percentileS
        (percentileS (medianS st1 st.length).2 st.length 90).2 st.length 95).2.length :=
      lt_of_lt_of_le hb3 l3
    obtain ⟨e4, _⟩ := percentileS_frame (percentileS
      (percentileS (medianS st1 st.length).2 st.length 90).2 st.length 95).2
      st.length 99 hb4
    rw [e4, e3, e2, e1, hst1, readArr_append hb]

theorem calculateStatsS_value (st : Store) (a f : ℕ) :
    (calculateStatsS st a f).1 = calculateStats (readArr st a) f := by
  simp only [calculateStatsS, calculateStats]
  have hv : readArr (st ++ [filterValid (readArr st a)]) st.length
      = filterValid (readArr st a) := readArr_append_last _ _
  rw [hv, numsOf_filterValid]
  by_cases hlen : (validOf (readArr st a)).length = 0
  · simp [hlen]
  · simp only [if_neg hlen]
    set st1 : Store := st ++ [filterValid (readArr st a)] with hst1
    have hvlt : st.length < st1.length := by simp [hst1]
    have h1 := medianS_value st1 st.length
    rw [hv, numsOf_filterValid] at h1
    obtain ⟨e1, l1⟩ := medianS_frame st1 st.length hvlt
    have hvlt2 : st.length < (medianS st1 st.length).2.length := lt_of_lt_of_le hvlt l1
    have h2 := percentileS_value (medianS st1 st.length).2 st.length 90
    rw [e1, hv, numsOf_filterValid] at h2
    obtain ⟨e2, l2⟩ := percentileS_frame (medianS st1 st.length).2 st.length 90 hvlt2
    have hvlt3 : st.length <
        (percentileS (medianS st1 st.length).2 st.length 90).2.length :=
      lt_of_lt_of_le hvlt2 l2
    have h3 := percentileS_value
      (percentileS (medianS st1 st.length).2 st.length 90).2 st.length 95
    rw [e2, e1, hv, numsOf_filterValid] at h3
    obtain ⟨e3, l3⟩ := percentileS_frame
      (percentileS (medianS st1 st.length).2 st.length 90).2 st.length 95 hvlt3
    have h4 := percentileS_value (percentileS
      (percentileS (medianS st1 st.length).2 st.length 90).2 st.length 95).2
      st.length 99
    rw [e3, e2, e1, hv, numsOf_filterValid] at h4
    rw [h1, h2, h3, h4]

/-- C8: the statistics engine never mutates its input: in the store model —
where `Array.prototype.sort` writes to its receiver's address — after
`calculateStats` on the array at address `a`, that array still holds the
same elements in the same order, because `filter` builds a fresh array and
`median`/`percentile` sort fresh `[...arr]` copies; moreover the store-level
run computes exactly the pure `calculateStats` summary. -/
theorem calculateStats_no_mutation (st : Store) (a f : ℕ) (ha : a < st.length) :
    readArr (calculateStatsS st a f).2 a = readArr st a ∧
    (calculateStatsS st a f).1 = calculateStats (readArr st a) f :=
  ⟨calculateStatsS_frame st a f ha, calculateStatsS_value st a f⟩

/-- C8 witness: a one-array store holding `[3, null]` is unchanged at its
address by a `calculateStats` run. -/
theorem calculateStats_no_mutation_witness :
    readArr (calculateStatsS [[JVal.num 3, JVal.jnull]] 0 0).2 0
      = [JVal.num 3, JVal.jnull] := by
  have h := (calculateStats_no_mutation [[JVal.num 3, JVal.jnull]] 0 0 (by decide)).1
  rw [h]
  rfl

/-! ## Certification of the fused square-root rounding -/

/-- Certification: `roundSqrtQ` really is `⌊√q + 1/2⌋`, i.e. `Math.round (Math.sqrt q)`
under exact real arithmetic, for every non-negative rational. -/
theorem roundSqrtQ_spec (q : ℚ) (hq : 0 ≤ q) :
    (roundSqrtQ q : ℤ) = ⌊Real.sqrt (q : ℝ) + 1 / 2⌋ := by
  have hq4 : (0 : ℤ) ≤ ⌊4 * q⌋ := by
    refine Int.le_floor.mpr ?_
    push_cast
    positivity
  set m : ℕ := (⌊4 * q⌋).toNat with hm
  have hmz : (m : ℤ) = ⌊4 * q⌋ := Int.toNat_of_nonneg hq4
  set s : ℕ := Nat.sqrt m with hs
  have hs1 : s * s ≤ m := Nat.sqrt_le m
  have hs2 : m < (s + 1) * (s + 1) := Nat.lt_succ_sqrt m
  have hf1 : (m : ℚ) ≤ 4 * q := by
    rw [show ((m : ℚ)) = ((m : ℤ) : ℚ) by push_cast; ring, hmz]
    exact Int.floor_le _
  have hf2 : (4 : ℚ) * q < (m : ℚ) + 1 := by
    have := Int.lt_floor_add_one (4 * q)
    rw [← hmz] at this
    push_cast at this
    linarith
  have hr1 : ((s : ℝ)) ^ 2 ≤ 4 * (q : ℝ) := by
    have h1 : ((s * s : ℕ) : ℝ) ≤ ((m : ℕ) : ℝ) := by exact_mod_cast hs1
    have h2 : ((m : ℕ) : ℝ) ≤ 4 * (q : ℝ) := by exact_mod_cast hf1
    push_cast at h1
    nlinarith
  have hr2 : 4 * (q : ℝ) < ((s : ℝ) + 1) ^ 2 := by
    have h1 : ((m : ℕ) : ℝ) < (((s + 1) * (s + 1) : ℕ) : ℝ) := by exact_mod_cast hs2
    have h2 : 4 * (q : ℝ) < ((m : ℕ) : ℝ) + 1 := by exact_mod_cast hf2
    have h3 : (((s + 1) * (s + 1) : ℕ) : ℝ) = ((s : ℝ) + 1) ^ 2 := by push_cast; ring
    have h4 : ((m : ℕ) : ℝ) + 1 ≤ (((s + 1) * (s + 1) : ℕ) : ℝ) := by
      exact_mod_cast hs2
    linarith
  have hx4 : Real.sqrt (4 * (q : ℝ)) = 2 * Real.sqrt q := by
    rw [show (4 : ℝ) * (q : ℝ) = 2 ^ 2 * q by ring,
        Real.sqrt_mul (by positivity) _, Real.sqrt_sq (by norm_num)]
  have hlb : (s : ℝ) ≤ 2 * Real.sqrt q := by
    rw [← hx4]
    exact Real.le_sqrt_of_sq_le hr1
  have hub : 2 * Real.sqrt q < (s : ℝ) + 1 := by
    rw [← hx4]
    exact (Real.sqrt_lt' (by positivity)).mpr hr2
  have hgoal : ⌊Real.sqrt (q : ℝ) + 1 / 2⌋ = (((s + 1) / 2 : ℕ) : ℤ) := by
    rcases Nat.even_or_odd s with ⟨t, ht⟩ | ⟨t, ht⟩
    · have hn : (s + 1) / 2 = t := by omega
      rw [hn]
      refine Int.floor_eq_iff.mpr ⟨?_, ?_⟩
      · have : ((t : ℝ)) + (t : ℝ) ≤ 2 * Real.sqrt q := by
          calc ((t : ℝ)) + (t : ℝ) = ((s : ℝ)) := by rw [ht]; push_cast; ring
            _ ≤ 2 * Real.sqrt q := hlb
        push_cast
        linarith
      · have : 2 * Real.sqrt q < ((t : ℝ)) + (t : ℝ) + 1 := by
          calc 2 * Real.sqrt q < ((s : ℝ)) + 1 := hub
            _ = ((t : ℝ)) + (t : ℝ) + 1 := by rw [ht]; push_cast; ring
        push_cast
        linarith
    · have hn : (s + 1) / 2 = t + 1 := by omega
      rw [hn]
      refine Int.floor_eq_iff.mpr ⟨?_, ?_⟩
      · have : 2 * (t : ℝ) + 1 ≤ 2 * Real.sqrt q := by
          calc 2 * (t : ℝ) + 1 = ((s : ℝ)) := by rw [ht]; push_cast; ring
            _ ≤ 2 * Real.sqrt q := hlb
        push_cast
        linarith
      · have : 2 * Real.sqrt q < 2 * (t : ℝ) + 2 := by
          calc 2 * Real.sqrt q < ((s : ℝ)) + 1 := hub
            _ = 2 * (t : ℝ) + 2 := by rw [ht]; push_cast; ring
        push_cast
        linarith
  rw [hgoal]
  simp [roundSqrtQ, ← hm, ← hs]

end Benchmark
